import Mathlib

/-!
Verification of the header-parsing layer of `heleven` (`src/parsers.rs`).

Bytes are modelled as natural numbers (every byte of a Rust `&[u8]` is
below 256).  Byte slices become `List Nat`.  The fallible Rust function
`extract_header_name_value` returns `Result`, modelled as `Except`.

The field-value pattern `FIELD_VALUE_WITH_OWS` is a `regex::bytes::Regex`:

  `^[ \t]*([\x21-\x7e\x80-\xff]([ \t[\x21-\x7e\x80-\xff]]+[\x21-\x7e\x80-\xff])?)*[ \t]*$`

The pattern does not disable Unicode mode, so (per the `regex` crate's
documented semantics) the hex escapes denote Unicode codepoints and the
character classes match the UTF-8 encodings of those codepoints: the class
`[\x21-\x7e\x80-\xff]` matches a single byte `0x21..0x7e`, or the two-byte
UTF-8 encoding of a codepoint `U+0080..U+00FF` (a lead byte `0xC2`/`0xC3`
followed by a continuation byte `0x80..0xBF`).  A lone byte `0x80..0xff`
in the haystack is invalid UTF-8 and matches no class of the pattern.
The embedding therefore first reads the haystack as the sequence of
characters the engine sees (`tokenize`), and then runs the pattern over
those character units, mirroring the pattern's shape piece by piece with
the crate's leftmost-first (backtracking-preference) semantics.

Capture group 1 is the outer repeated group `(...)*`; as in every
backtracking-compatible engine, a group inside a repetition captures the
text of its **last** iteration only.
-/

set_option maxHeartbeats 1000000
set_option maxRecDepth 10000

namespace Heleven

/-! ### Character classifier (`impl CharABNF for u8`) -/

/-- Source: `is_alpha`, "A-Z / a-z", the ranges `0x41..=0x5a` and `0x61..=0x7a`. -/
def is_alpha (b : Nat) : Bool :=
  (0x41 ≤ b && b ≤ 0x5a) || (0x61 ≤ b && b ≤ 0x7a)

/-- Source: `is_digit`, "0-9", the range `0x30..=0x39`. -/
def is_digit (b : Nat) : Bool :=
  0x30 ≤ b && b ≤ 0x39

/-- Source: `is_crlf`, literally `*self == 0x0d && *self == 0x0a`. -/
def is_crlf (b : Nat) : Bool :=
  b == 0x0d && b == 0x0a

/-- The bytes of the Rust byte-string literal `b"!#$%&'*+-.^_\x60|~"`
    used in `is_tchar` (0x60 is the backquote character). -/
def tcharSymbols : List Nat :=
  [0x21, 0x23, 0x24, 0x25, 0x26, 0x27, 0x2a, 0x2b, 0x2d, 0x2e,
   0x5e, 0x5f, 0x60, 0x7c, 0x7e]

/-- Source: `is_tchar`: `self.is_alpha() || self.is_digit() || b"...".contains(self)`. -/
def is_tchar (b : Nat) : Bool :=
  is_alpha b || is_digit b || tcharSymbols.contains b

/-! ### Line extractor (`extract_header_lines`) -/

/-- Rust `headers.split(|&c| c == b'\n')`: the segments between LF bytes,
    including empty segments (an empty input yields one empty segment). -/
def splitOnLF : List Nat → List (List Nat)
  | [] => [[]]
  | c :: t =>
    if c == 0x0a then [] :: splitOnLF t
    else
      match splitOnLF t with
      | s :: rest => (c :: s) :: rest
      | [] => [[c]]

/-- The per-line body of the loop in `extract_header_lines`: if the last
    byte is CR, drop it (`&line[..line.len() - 1]`), else keep the line. -/
def trimCR (line : List Nat) : List Nat :=
  if line.getLast? == some 0x0d then line.dropLast else line

/-- Source: `extract_header_lines`: split on LF, keep segments with
    `line.len() > 0`, then trim one trailing CR from each kept segment. -/
def extract_header_lines (headers : List Nat) : List (List Nat) :=
  ((splitOnLF headers).filter (fun line => decide (0 < line.length))).map trimCR

/-- Source: `enum ParseError`. -/
inductive ParseError where
  | InvalidHeaderKeyChar
  | InvalidHeaderValueChar
  | ColonNotFound
  | InvalidHeaderValue
deriving DecidableEq

/-! ### Field splitter (`extract_header_name_value`) -/

/-- The colon-scan loop of `extract_header_name_value`: walk the bytes
    left to right; at a `:` (0x3a) stop with its index; at a non-tchar
    byte stop with `InvalidHeaderKeyChar`; if the line is exhausted the
    `ok_or` turns the missing index into `ColonNotFound`. -/
def findColonScan : List Nat → Except ParseError Nat
  | [] => .error .ColonNotFound
  | c :: t =>
    if c == 0x3a then .ok 0
    else if is_tchar c then (findColonScan t).map (· + 1)
    else .error .InvalidHeaderKeyChar

/-! ### The compiled pattern `FIELD_VALUE_WITH_OWS`

`tokenize` reads the haystack the way the Unicode-mode bytes engine does:
each unit is a codepoint paired with the bytes of its UTF-8 encoding.
Only codepoints at most `U+00FF` occur in the pattern's classes, so a
byte that is neither ASCII nor the start of a two-byte `0xC2`/`0xC3`
sequence can never be consumed by the anchored pattern; `tokenize` stops
there and returns the unread remainder as its second component. -/

/-- Read the haystack as (codepoint, encoded-bytes) units; stop at the
    first position that no class of the pattern could ever match. -/
def tokenize : List Nat → List (Nat × List Nat) × List Nat
  | [] => ([], [])
  | b :: t =>
    if b < 0x80 then
      let p := tokenize t
      ((b, [b]) :: p.1, p.2)
    else if b == 0xc2 || b == 0xc3 then
      match t with
      | [] => ([], [b])
      | b2 :: t2 =>
        if 0x80 ≤ b2 && b2 ≤ 0xbf then
          let p := tokenize t2
          (((b - 0xc0) * 0x40 + (b2 - 0x80), [b, b2]) :: p.1, p.2)
        else ([], b :: b2 :: t2)
    else ([], b :: t)

/-- The class `[\x21-\x7e\x80-\xff]` (field-vchar) as a codepoint set. -/
def fvCp (cp : Nat) : Bool :=
  (0x21 ≤ cp && cp ≤ 0x7e) || (0x80 ≤ cp && cp ≤ 0xff)

/-- The class `[ \t]` as a codepoint set. -/
def owsCp (cp : Nat) : Bool :=
  cp == 0x20 || cp == 0x09

/-- The nested class `[ \t[\x21-\x7e\x80-\xff]]` as a codepoint set. -/
def innerCp (cp : Nat) : Bool :=
  cp == 0x20 || cp == 0x09 || fvCp cp

/-- Matching of `[ \t[\x21-\x7e\x80-\xff]]+[\x21-\x7e\x80-\xff]` at the
    front of the unit list, with the greedy (longest-first) preference of
    the `+`: the split returned is the longest prefix of `[ \t[...]]`
    units that ends in a field-vchar unit.  (The continuation after this
    subpattern is the anchored tail `)*[ \t]*$`, whose classes are all
    subsets of `[ \t[...]]`; a longer `+` can never turn an otherwise
    failing overall match into a success, so the first greedy success is
    the one the engine keeps.)  `none` means no such prefix exists. -/
def lastFVSplit : List (Nat × List Nat) → Option (List (Nat × List Nat) × List (Nat × List Nat))
  | [] => none
  | u :: t =>
    if innerCp u.1 then
      match lastFVSplit t with
      | some (p, r) => some (u :: p, r)
      | none => if fvCp u.1 then some ([u], t) else none
    else none

/-- The optional inner group `([ \t[...]]+[\x21-\x7e\x80-\xff])?`:
    it participates only when the `+` part is nonempty, i.e. when the
    matched prefix has at least two units; otherwise it matches empty. -/
def innerOpt (t : List (Nat × List Nat)) :
    Option (List (Nat × List Nat) × List (Nat × List Nat)) :=
  match lastFVSplit t with
  | some (p, r) => if 2 ≤ p.length then some (p, r) else none
  | none => none

/-- The greedy star of capture group 1, `([\x21-\x7e\x80-\xff](...)?)*`:
    iterate while a field-vchar unit starts an iteration; each iteration
    is the leading field-vchar unit followed by the greedy optional inner
    group.  Returns the capture of the last iteration (`none` when the
    group participated in no iteration, as `Captures::get(1)` then
    reports no match) and the unconsumed remainder.  Fuel is structural
    bookkeeping only: every iteration consumes at least one unit, so
    `length + 1` fuel always suffices (see `starGAux_canon`). -/
def starGAux : Nat → List (Nat × List Nat) →
    Option (List (Nat × List Nat)) × List (Nat × List Nat)
  | 0, us => (none, us)
  | _ + 1, [] => (none, [])
  | fuel + 1, u :: t =>
    if fvCp u.1 then
      match innerOpt t with
      | some (p, r) =>
        let q := starGAux fuel r
        (q.1.orElse (fun _ => some (u :: p)), q.2)
      | none =>
        let q := starGAux fuel t
        (q.1.orElse (fun _ => some [u]), q.2)
    else (none, u :: t)

/-- The star with adequate fuel. -/
def starG (us : List (Nat × List Nat)) :
    Option (List (Nat × List Nat)) × List (Nat × List Nat) :=
  starGAux (us.length + 1) us

/-- The bytes spanned by a list of units (`Match::as_bytes` of a span of
    consecutive units). -/
def unitBytes (us : List (Nat × List Nat)) : List Nat :=
  (us.map Prod.snd).flatten

/-- Model of `re.captures(haystack)` followed by `get(1)` for the anchored
    pattern `FIELD_VALUE_WITH_OWS`:
    `none` when the pattern does not match the haystack;
    `some none` when it matches but group 1 did not participate;
    `some (some v)` when it matches and group 1 last captured bytes `v`.
    Structure, in the pattern's order: the leading `^[ \t]*` greedily
    consumes whitespace units, then the starred group 1 runs, then the
    trailing `[ \t]*$` must consume everything that remains. -/
def fieldValueOWSCaptures (s : List Nat) : Option (Option (List Nat)) :=
  let tk := tokenize s
  if tk.2 = [] then
    let us := tk.1.dropWhile (fun u => owsCp u.1)
    let q := starG us
    if q.2.dropWhile (fun u => owsCp u.1) = [] then some (q.1.map unitBytes)
    else none
  else none

/-- Source: `extract_header_name_value`: scan for the colon, then run the
    compiled pattern on `&header_line[colon_index + 1..]`; a failed match
    or a non-participating group 1 is `InvalidHeaderValue`; on success the
    name is `&header_line[..colon_index]` and the value the group-1 bytes. -/
def extract_header_name_value (header_line : List Nat) :
    Except ParseError (List Nat × List Nat) :=
  match findColonScan header_line with
  | .error e => .error e
  | .ok i =>
    match fieldValueOWSCaptures (header_line.drop (i + 1)) with
    | none => .error .InvalidHeaderValue
    | some none => .error .InvalidHeaderValue
    | some (some v) => .ok (header_line.take i, v)

/-! ### Panic-checked variants

The Rust code contains two operations that panic on out-of-range input:
the index `line[line.len() - 1]` in `extract_header_lines` and the slice
`&header_line[colon_index + 1..]` in `extract_header_name_value`.  The
checked variants make those partial operations explicit (`none` models a
panic) so that panic-freedom is a provable statement. -/

/-- `trimCR` with the index `line[line.len() - 1]` made explicit: `none`
    models the panic of indexing an empty slice. -/
def trimCRChecked (line : List Nat) : Option (List Nat) :=
  match line.getLast? with
  | none => none
  | some c => some (if c == 0x0d then line.dropLast else line)

/-- `extract_header_lines` with the per-line index made explicit. -/
def extract_header_lines_checked (headers : List Nat) : Option (List (List Nat)) :=
  ((splitOnLF headers).filter (fun line => decide (0 < line.length))).mapM trimCRChecked

/-- `extract_header_name_value` with the slice `&header_line[i + 1..]`
    made explicit: `none` models the panic of slicing past the end. -/
def extract_header_name_value_checked (header_line : List Nat) :
    Option (Except ParseError (List Nat × List Nat)) :=
  match findColonScan header_line with
  | .error e => some (.error e)
  | .ok i =>
    if i + 1 ≤ header_line.length then
      some (match fieldValueOWSCaptures (header_line.drop (i + 1)) with
            | none => .error .InvalidHeaderValue
            | some none => .error .InvalidHeaderValue
            | some (some v) => .ok (header_line.take i, v))
    else none

/-! ### Derived notions used to state properties -/

/-- Drop the trailing run of `[ \t]` units. -/
def dropTrailOWS (us : List (Nat × List Nat)) : List (Nat × List Nat) :=
  (us.reverse.dropWhile (fun u => owsCp u.1)).reverse

/-- The core of a unit list: from its first non-whitespace unit through
    its last non-whitespace unit. -/
def coreUnits (us : List (Nat × List Nat)) : List (Nat × List Nat) :=
  dropTrailOWS (us.dropWhile (fun u => owsCp u.1))

/-- The group-1 capture the pattern produces on a fully-matching unit
    list, described directly: no capture for an empty core, the last
    unit alone for a two-unit core, the whole core otherwise. -/
def capSpec (us : List (Nat × List Nat)) : Option (List (Nat × List Nat)) :=
  let core := coreUnits us
  if core = [] then none
  else if core.length = 2 then some (core.drop 1) else some core

/-! ### Codepoint-class facts -/

theorem fv_inner {cp : Nat} (h : fvCp cp = true) : innerCp cp = true := by
  simp [innerCp, h]

theorem ows_inner {cp : Nat} (h : owsCp cp = true) : innerCp cp = true := by
  simp only [owsCp, Bool.or_eq_true, beq_iff_eq] at h
  rcases h with rfl | rfl <;> rfl

theorem ows_not_fv {cp : Nat} (h : owsCp cp = true) : fvCp cp = false := by
  simp only [owsCp, Bool.or_eq_true, beq_iff_eq] at h
  rcases h with rfl | rfl <;> rfl

theorem fv_not_ows {cp : Nat} (h : fvCp cp = true) : owsCp cp = false := by
  simp only [fvCp, Bool.or_eq_true, Bool.and_eq_true, decide_eq_true_eq] at h
  simp only [owsCp, Bool.or_eq_false_iff, beq_eq_false_iff_ne, ne_eq]
  omega

theorem inner_resolve {cp : Nat} (h : innerCp cp = true) (hn : owsCp cp = false) :
    fvCp cp = true := by
  simp only [innerCp, Bool.or_eq_true, beq_iff_eq] at h
  simp only [owsCp, Bool.or_eq_false_iff, beq_eq_false_iff_ne, ne_eq] at hn
  rcases h with (h | h) | h
  · exact absurd h hn.1
  · exact absurd h hn.2
  · exact h

theorem is_tchar_ne_colon {b : Nat} (h : is_tchar b = true) : b ≠ 0x3a := by
  intro hb
  rw [hb] at h
  exact absurd h (by decide)

/-! ### List helpers -/

theorem dropWhile_head_false {α : Type} {p : α → Bool} :
    ∀ (l : List α) {u t}, l.dropWhile p = u :: t → p u = false := by
  intro l
  induction l with
  | nil => intro u t h; cases h
  | cons c l ih =>
    intro u t h
    rw [List.dropWhile_cons] at h
    by_cases hc : p c
    · rw [if_pos hc] at h; exact ih h
    · rw [if_neg hc] at h
      cases h
      exact Bool.of_not_eq_true hc

theorem dropWhile_of_all {α : Type} {p : α → Bool} :
    ∀ (l : List α), (∀ u ∈ l, p u = true) → l.dropWhile p = [] := by
  intro l
  induction l with
  | nil => intro _; rfl
  | cons c l ih =>
    intro h
    rw [List.dropWhile_cons, if_pos (h c (List.mem_cons_self c l))]
    exact ih fun u hu => h u (List.mem_cons_of_mem c hu)

theorem all_of_dropWhile_nil {α : Type} {p : α → Bool} :
    ∀ (l : List α), l.dropWhile p = [] → ∀ u ∈ l, p u = true := by
  intro l
  induction l with
  | nil => intro _ u hu; cases hu
  | cons c l ih =>
    intro h u hu
    rw [List.dropWhile_cons] at h
    by_cases hc : p c
    · rcases List.mem_cons.mp hu with rfl | hu
      · exact hc
      · exact ih (by rwa [if_pos hc] at h) u hu
    · rw [if_neg hc] at h; cases h

/-! ### Behaviour of the inner subpattern matcher -/

theorem lastFVSplit_parts :
    ∀ {t p r : List (Nat × List Nat)}, lastFVSplit t = some (p, r) →
      p ++ r = t ∧ 0 < p.length ∧ ∀ u ∈ p, innerCp u.1 = true := by
  intro t
  induction t with
  | nil => intro p r h; cases h
  | cons u t ih =>
    intro p r h
    rw [lastFVSplit] at h
    by_cases hu : innerCp u.1
    · rw [if_pos hu] at h
      cases hs : lastFVSplit t with
      | some pr =>
        rw [hs] at h
        obtain ⟨p', r'⟩ := pr
        cases h
        obtain ⟨happ, hpos, hmem⟩ := ih hs
        refine ⟨by simp [← happ], by simp, ?_⟩
        intro x hx
        rcases List.mem_cons.mp hx with rfl | hx
        · exact hu
        · exact hmem x hx
      | none =>
        rw [hs] at h
        by_cases hf : fvCp u.1
        · rw [if_pos hf] at h
          cases h
          exact ⟨rfl, by simp, fun x hx => by
            rcases List.mem_cons.mp hx with rfl | hx
            · exact hu
            · cases hx⟩
        · rw [if_neg hf] at h; cases h
    · rw [if_neg hu] at h; cases h

theorem lastFVSplit_ows {w : List (Nat × List Nat)}
    (h : ∀ u ∈ w, owsCp u.1 = true) : lastFVSplit w = none := by
  induction w with
  | nil => rfl
  | cons u w ih =>
    rw [lastFVSplit]
    have hu := h u (List.mem_cons_self u w)
    rw [if_pos (ows_inner hu), ih fun x hx => h x (List.mem_cons_of_mem u hx),
      ows_not_fv hu]
    rfl

theorem lastFVSplit_app :
    ∀ {a : List (Nat × List Nat)} {w d}, (∀ u ∈ a, innerCp u.1 = true) →
      a.getLast? = some d → fvCp d.1 = true → (∀ u ∈ w, owsCp u.1 = true) →
      lastFVSplit (a ++ w) = some (a, w) := by
  intro a
  induction a with
  | nil => intro w d _ hlast _ _; cases hlast
  | cons x a ih =>
    intro w d hmem hlast hfv hw
    cases a with
    | nil =>
      rw [List.getLast?_singleton] at hlast
      cases hlast
      rw [List.singleton_append, lastFVSplit,
        if_pos (hmem x (List.mem_cons_self x [])), lastFVSplit_ows hw, if_pos hfv]
    | cons y a =>
      rw [List.getLast?_cons_cons] at hlast
      have step := ih (fun u hu => hmem u (List.mem_cons_of_mem x hu)) hlast hfv hw
      rw [List.cons_append, lastFVSplit,
        if_pos (hmem x (List.mem_cons_self x (y :: a))), step]

theorem innerOpt_parts {t p r : List (Nat × List Nat)}
    (h : innerOpt t = some (p, r)) :
    p ++ r = t ∧ 2 ≤ p.length ∧ ∀ u ∈ p, innerCp u.1 = true := by
  unfold innerOpt at h
  split at h
  next p' r' hs =>
    split at h
    next hl =>
      cases h
      obtain ⟨happ, _, hmem⟩ := lastFVSplit_parts hs
      exact ⟨happ, hl, hmem⟩
    next => cases h
  next => cases h

/-! ### Fuel irrelevance and one-step unfolding for the star -/

theorem starGAux_canon :
    ∀ fuel, ∀ us : List (Nat × List Nat), us.length < fuel →
      starGAux fuel us = starGAux (us.length + 1) us := by
  intro fuel
  induction fuel using Nat.strong_induction_on with
  | _ fuel ih =>
    intro us hlen
    match fuel, us with
    | 0, us => omega
    | f + 1, [] => rfl
    | f + 1, u :: t =>
      simp only [List.length_cons] at hlen
      show starGAux (f + 1) (u :: t) = starGAux (t.length + 1 + 1) (u :: t)
      rw [starGAux, starGAux]
      by_cases hu : fvCp u.1
      · rw [if_pos hu, if_pos hu]
        cases hio : innerOpt t with
        | some pr =>
          obtain ⟨p, r⟩ := pr
          obtain ⟨happ, hp2, _⟩ := innerOpt_parts hio
          have hr : r.length < t.length := by
            have := congrArg List.length happ
            simp only [List.length_append] at this
            omega
          dsimp only
          rw [ih f (by omega) r (by omega), ih (t.length + 1) (by omega) r (by omega)]
        | none =>
          dsimp only
          rw [ih f (by omega) t (by omega), ih (t.length + 1) (by omega) t (by omega)]
      · rw [if_neg hu, if_neg hu]

theorem starG_cons (u : Nat × List Nat) (t : List (Nat × List Nat)) :
    starG (u :: t) =
      if fvCp u.1 then
        match innerOpt t with
        | some (p, r) =>
          ((starG r).1.orElse (fun _ => some (u :: p)), (starG r).2)
        | none =>
          ((starG t).1.orElse (fun _ => some [u]), (starG t).2)
      else (none, u :: t) := by
  show starGAux (t.length + 1 + 1) (u :: t) = _
  rw [starGAux]
  by_cases hu : fvCp u.1
  · rw [if_pos hu, if_pos hu]
    cases hio : innerOpt t with
    | some pr =>
      obtain ⟨p, r⟩ := pr
      obtain ⟨happ, hp2, _⟩ := innerOpt_parts hio
      have hr : r.length < t.length := by
        have := congrArg List.length happ
        simp only [List.length_append] at this
        omega
      dsimp only
      rw [starGAux_canon (t.length + 1) r (by omega)]
      rfl
    | none =>
      dsimp only
      rw [starGAux_canon (t.length + 1) t (by omega)]
      rfl
  · rw [if_neg hu, if_neg hu]

theorem starG_nil : starG [] = (none, []) := rfl

theorem starG_ows_head {w : List (Nat × List Nat)}
    (h : ∀ u ∈ w, owsCp u.1 = true) : starG w = (none, w) := by
  cases w with
  | nil => rfl
  | cons u t =>
    rw [starG_cons, if_neg]
    rw [ows_not_fv (h u (List.mem_cons_self u t))]
    exact Bool.false_ne_true

theorem starG_consumed_aux :
    ∀ n, ∀ us : List (Nat × List Nat), us.length ≤ n →
      ∃ pre, us = pre ++ (starG us).2 ∧ ∀ u ∈ pre, innerCp u.1 = true := by
  intro n
  induction n with
  | zero =>
    intro us hlen
    have : us = [] := List.length_eq_zero.mp (Nat.le_zero.mp hlen)
    subst this
    exact ⟨[], rfl, fun u hu => absurd hu (List.not_mem_nil u)⟩
  | succ n ih =>
    intro us hlen
    cases us with
    | nil => exact ⟨[], rfl, fun u hu => absurd hu (List.not_mem_nil u)⟩
    | cons u t =>
      simp only [List.length_cons, Nat.succ_le_succ_iff] at hlen
      rw [starG_cons]
      by_cases hu : fvCp u.1
      · rw [if_pos hu]
        cases hio : innerOpt t with
        | some pr =>
          obtain ⟨p, r⟩ := pr
          obtain ⟨happ, hp2, hpmem⟩ := innerOpt_parts hio
          have hr : r.length ≤ n := by
            have := congrArg List.length happ
            simp only [List.length_append] at this
            omega
          obtain ⟨pre, hpre, hpremem⟩ := ih r hr
          refine ⟨u :: p ++ pre, ?_, ?_⟩
          · simp only [List.cons_append, List.append_assoc, ← hpre, happ]
          · intro x hx
            rcases List.mem_cons.mp hx with rfl | hx
            · exact fv_inner hu
            · rcases List.mem_append.mp hx with hx | hx
              · exact hpmem x hx
              · exact hpremem x hx
        | none =>
          obtain ⟨pre, hpre, hpremem⟩ := ih t hlen
          refine ⟨u :: pre, by simp only [List.cons_append, ← hpre], ?_⟩
          intro x hx
          rcases List.mem_cons.mp hx with rfl | hx
          · exact fv_inner hu
          · exact hpremem x hx
      · rw [if_neg hu]
        exact ⟨[], rfl, fun x hx => absurd hx (List.not_mem_nil x)⟩

theorem starG_consumed (us : List (Nat × List Nat)) :
    ∃ pre, us = pre ++ (starG us).2 ∧ ∀ u ∈ pre, innerCp u.1 = true :=
  starG_consumed_aux us.length us (Nat.le_refl _)

/-! ### Decomposition of a unit list into leading whitespace, core, trailing whitespace -/

theorem mem_of_getLast?_eq {α : Type} {l : List α} {d : α} (h : l.getLast? = some d) :
    d ∈ l := by
  rw [List.getLast?_eq_head?_reverse] at h
  refine List.mem_reverse.mp ?_
  cases hr : l.reverse with
  | nil => rw [hr] at h; cases h
  | cons x xs =>
    rw [hr] at h
    simp only [List.head?_cons, Option.some_inj] at h
    rw [h]
    exact List.mem_cons_self d xs

theorem orElse_none_fun {α : Type} (f : Unit → Option α) :
    (none : Option α).orElse f = f () := rfl

theorem orElse_some_fun {α : Type} (a : α) (f : Unit → Option α) :
    (some a : Option α).orElse f = some a := rfl

theorem dropTrail_decomp (t : List (Nat × List Nat)) :
    t = dropTrailOWS t ++ (t.reverse.takeWhile (fun u => owsCp u.1)).reverse := by
  unfold dropTrailOWS
  conv_lhs => rw [← List.reverse_reverse t,
    ← List.takeWhile_append_dropWhile (fun u => owsCp u.1) t.reverse]
  rw [List.reverse_append]

theorem dropTrail_trail_ows (t : List (Nat × List Nat)) :
    ∀ u ∈ (t.reverse.takeWhile (fun u => owsCp u.1)).reverse, owsCp u.1 = true := by
  intro u hu
  have h1 : u ∈ t.reverse.takeWhile (fun u => owsCp u.1) := List.mem_reverse.mp hu
  have h2 := List.mem_takeWhile_imp h1
  exact h2

theorem dropTrail_last (t : List (Nat × List Nat)) (h : dropTrailOWS t ≠ []) :
    ∃ d, (dropTrailOWS t).getLast? = some d ∧ owsCp d.1 = false := by
  unfold dropTrailOWS at *
  rw [List.getLast?_eq_head?_reverse, List.reverse_reverse]
  cases hx : t.reverse.dropWhile (fun u => owsCp u.1) with
  | nil => rw [hx] at h; exact absurd rfl h
  | cons c xs => exact ⟨c, rfl, dropWhile_head_false t.reverse hx⟩

theorem mem_dropTrail {t : List (Nat × List Nat)} {u : Nat × List Nat}
    (hu : u ∈ dropTrailOWS t) : u ∈ t := by
  unfold dropTrailOWS at hu
  have h1 : u ∈ t.reverse.dropWhile (fun u => owsCp u.1) := List.mem_reverse.mp hu
  have h2 : u ∈ t.reverse :=
    ((List.dropWhile_suffix (fun u => owsCp u.1)).sublist).subset h1
  exact List.mem_reverse.mp h2

theorem mem_coreUnits {us : List (Nat × List Nat)} {u : Nat × List Nat}
    (hu : u ∈ coreUnits us) : u ∈ us := by
  unfold coreUnits at hu
  exact ((List.dropWhile_suffix (fun u => owsCp u.1)).sublist).subset (mem_dropTrail hu)

theorem coreUnits_decomp (us : List (Nat × List Nat)) :
    ∃ w, us.dropWhile (fun u => owsCp u.1) = coreUnits us ++ w ∧
      ∀ u ∈ w, owsCp u.1 = true :=
  ⟨_, dropTrail_decomp (us.dropWhile (fun u => owsCp u.1)),
    dropTrail_trail_ows (us.dropWhile (fun u => owsCp u.1))⟩

theorem coreUnits_last (us : List (Nat × List Nat)) (h : coreUnits us ≠ []) :
    ∃ d, (coreUnits us).getLast? = some d ∧ owsCp d.1 = false :=
  dropTrail_last (us.dropWhile (fun u => owsCp u.1)) h

theorem innerOpt_of_split {t p r : List (Nat × List Nat)}
    (h : lastFVSplit t = some (p, r)) :
    innerOpt t = if 2 ≤ p.length then some (p, r) else none := by
  rw [innerOpt, h]

theorem innerOpt_of_split_none {t : List (Nat × List Nat)}
    (h : lastFVSplit t = none) : innerOpt t = none := by
  rw [innerOpt, h]

/-! ### What the star produces on a fully whitespace-or-field-vchar unit list -/

theorem starG_full (us : List (Nat × List Nat))
    (hall : ∀ u ∈ us, innerCp u.1 = true) :
    (starG (us.dropWhile (fun u => owsCp u.1))).1 = capSpec us ∧
    ∀ u ∈ (starG (us.dropWhile (fun u => owsCp u.1))).2, owsCp u.1 = true := by
  obtain ⟨w, hdec, hw⟩ := coreUnits_decomp us
  cases hcore : coreUnits us with
  | nil =>
    rw [hcore, List.nil_append] at hdec
    have hnil : us.dropWhile (fun u => owsCp u.1) = [] := by
      cases h' : us.dropWhile (fun u => owsCp u.1) with
      | nil => rfl
      | cons x xs =>
        have hx : owsCp x.1 = false := dropWhile_head_false us h'
        have hxw : x ∈ w := by
          rw [← hdec, h']
          exact List.mem_cons_self x xs
        rw [hw x hxw] at hx
        cases hx
    rw [hnil, starG_nil]
    refine ⟨?_, fun u hu => absurd hu (List.not_mem_nil u)⟩
    show (none : Option (List (Nat × List Nat))) = capSpec us
    simp [capSpec, hcore]
  | cons u core' =>
    rw [hcore] at hdec
    have huead : owsCp u.1 = false := by
      refine dropWhile_head_false us hdec
    have humem : u ∈ us := mem_coreUnits (hcore ▸ List.mem_cons_self u core')
    have hufv : fvCp u.1 = true := inner_resolve (hall u humem) huead
    obtain ⟨d, hd, hdows⟩ := coreUnits_last us (by rw [hcore]; exact List.cons_ne_nil u core')
    rw [hcore] at hd
    have hdmem : d ∈ us := mem_coreUnits (hcore ▸ mem_of_getLast?_eq hd)
    have hdfv : fvCp d.1 = true := inner_resolve (hall d hdmem) hdows
    cases core' with
    | nil =>
      rw [List.singleton_append] at hdec
      rw [hdec, starG_cons, if_pos hufv,
        innerOpt_of_split_none (lastFVSplit_ows hw), starG_ows_head hw]
      refine ⟨?_, hw⟩
      rw [orElse_none_fun]
      simp [capSpec, hcore]
    | cons v core'' =>
      cases core'' with
      | nil =>
        have hvd : v = d := by
          rw [List.getLast?_cons_cons, List.getLast?_singleton] at hd
          exact Option.some_inj.mp hd
        have hvfv : fvCp v.1 = true := by rw [hvd]; exact hdfv
        rw [List.cons_append, List.singleton_append] at hdec
        have hsplit : lastFVSplit (v :: w) = some ([v], w) := by
          have h0 : ∀ x ∈ [v], innerCp x.1 = true := by
            intro x hx
            have hx' : x = v := by simpa using hx
            rw [hx']
            exact fv_inner hvfv
          have := lastFVSplit_app h0 (List.getLast?_singleton v) hvfv hw
          rwa [List.singleton_append] at this
        rw [hdec, starG_cons, if_pos hufv, innerOpt_of_split hsplit, if_neg (by simp)]
        have hinner2 : starG (v :: w) = (some [v], w) := by
          rw [starG_cons, if_pos hvfv,
            innerOpt_of_split_none (lastFVSplit_ows hw), starG_ows_head hw]
          rfl
        dsimp only
        rw [hinner2]
        refine ⟨?_, hw⟩
        rw [orElse_some_fun]
        simp [capSpec, hcore]
      | cons z core₃ =>
        rw [List.getLast?_cons_cons] at hd
        rw [List.cons_append] at hdec
        have hsplit : lastFVSplit ((v :: z :: core₃) ++ w) = some (v :: z :: core₃, w) :=
          lastFVSplit_app
            (fun x hx => hall x (mem_coreUnits (hcore ▸ List.mem_cons_of_mem u hx)))
            hd hdfv hw
        rw [hdec, starG_cons, if_pos hufv, innerOpt_of_split hsplit,
          if_pos (by simp)]
        dsimp only
        rw [starG_ows_head hw]
        refine ⟨?_, hw⟩
        rw [orElse_none_fun]
        have hlen : (coreUnits us).length ≠ 2 := by
          rw [hcore]
          simp
        simp only [capSpec, hcore]
        rw [if_neg (by simp), if_neg (by rw [← hcore]; exact hlen)]

/-! ### Characterization of the compiled pattern's behaviour -/

theorem captures_allInner (s : List Nat) (h2 : (tokenize s).2 = [])
    (hall : ∀ u ∈ (tokenize s).1, innerCp u.1 = true) :
    fieldValueOWSCaptures s = some ((capSpec (tokenize s).1).map unitBytes) := by
  unfold fieldValueOWSCaptures
  dsimp only
  rw [if_pos h2]
  obtain ⟨hcap, hrest⟩ := starG_full (tokenize s).1 hall
  rw [if_pos (dropWhile_of_all _ hrest), hcap]

theorem captures_inv {s : List Nat} {g : Option (List Nat)}
    (h : fieldValueOWSCaptures s = some g) :
    (tokenize s).2 = [] ∧ (∀ u ∈ (tokenize s).1, innerCp u.1 = true) ∧
      g = (capSpec (tokenize s).1).map unitBytes := by
  unfold fieldValueOWSCaptures at h
  dsimp only at h
  by_cases h2 : (tokenize s).2 = []
  case neg => rw [if_neg h2] at h; cases h
  rw [if_pos h2] at h
  by_cases hrest : ((starG ((tokenize s).1.dropWhile (fun u => owsCp u.1))).2).dropWhile
      (fun u => owsCp u.1) = []
  case neg => rw [if_neg hrest] at h; cases h
  rw [if_pos hrest] at h
  have hall : ∀ u ∈ (tokenize s).1, innerCp u.1 = true := by
    obtain ⟨pre, hpre, hpremem⟩ :=
      starG_consumed ((tokenize s).1.dropWhile (fun u => owsCp u.1))
    intro u hu
    have hsplitm := List.takeWhile_append_dropWhile (fun u => owsCp u.1) (tokenize s).1
    rw [← hsplitm] at hu
    rcases List.mem_append.mp hu with hu | hu
    · have := List.mem_takeWhile_imp hu
      exact ows_inner this
    · rw [hpre] at hu
      rcases List.mem_append.mp hu with hu | hu
      · exact hpremem u hu
      · exact ows_inner (all_of_dropWhile_nil _ hrest u hu)
  obtain ⟨hcap, _⟩ := starG_full (tokenize s).1 hall
  rw [hcap] at h
  exact ⟨h2, hall, (Option.some_inj.mp h).symm⟩

/-! ### Claim theorems: character classes and concrete evaluations -/

/-- C8: for every byte `b`, `is_tchar b` holds exactly when `b` is ALPHA
    (0x41-0x5a or 0x61-0x7a), DIGIT (0x30-0x39), or one of the symbol
    bytes of the tchar set. -/
theorem is_tchar_characterization :
    ∀ b : Fin 256, is_tchar b.val = true ↔
      ((0x41 ≤ b.val ∧ b.val ≤ 0x5a) ∨ (0x61 ≤ b.val ∧ b.val ≤ 0x7a) ∨
        (0x30 ≤ b.val ∧ b.val ≤ 0x39) ∨
        b.val ∈ ([0x21, 0x23, 0x24, 0x25, 0x26, 0x27, 0x2a, 0x2b, 0x2d, 0x2e,
          0x5e, 0x5f, 0x60, 0x7c, 0x7e] : List Nat)) := by
  decide

/-- C10: the single-byte predicate `is_crlf` demands the byte equal 0x0d
    and 0x0a at once, so it is false on every input. -/
theorem is_crlf_always_false : ∀ b : Nat, is_crlf b = false := by
  intro b
  simp only [is_crlf, Bool.and_eq_false_iff, beq_eq_false_iff_ne, ne_eq]
  omega

/-- C7: the three lines `Content-Type:text/html`,
    `Content-Type: text/html ` and `Content-Type:   text/html   ` all
    parse to the name `Content-Type` and the value exactly `text/html`. -/
theorem content_type_three_forms :
    extract_header_name_value
        ([0x43, 0x6f, 0x6e, 0x74, 0x65, 0x6e, 0x74, 0x2d, 0x54, 0x79, 0x70, 0x65] ++
          [0x3a] ++ [0x74, 0x65, 0x78, 0x74, 0x2f, 0x68, 0x74, 0x6d, 0x6c]) =
      .ok ([0x43, 0x6f, 0x6e, 0x74, 0x65, 0x6e, 0x74, 0x2d, 0x54, 0x79, 0x70, 0x65],
        [0x74, 0x65, 0x78, 0x74, 0x2f, 0x68, 0x74, 0x6d, 0x6c]) ∧
    extract_header_name_value
        ([0x43, 0x6f, 0x6e, 0x74, 0x65, 0x6e, 0x74, 0x2d, 0x54, 0x79, 0x70, 0x65] ++
          [0x3a, 0x20] ++ [0x74, 0x65, 0x78, 0x74, 0x2f, 0x68, 0x74, 0x6d, 0x6c] ++ [0x20]) =
      .ok ([0x43, 0x6f, 0x6e, 0x74, 0x65, 0x6e, 0x74, 0x2d, 0x54, 0x79, 0x70, 0x65],
        [0x74, 0x65, 0x78, 0x74, 0x2f, 0x68, 0x74, 0x6d, 0x6c]) ∧
    extract_header_name_value
        ([0x43, 0x6f, 0x6e, 0x74, 0x65, 0x6e, 0x74, 0x2d, 0x54, 0x79, 0x70, 0x65] ++
          [0x3a, 0x20, 0x20, 0x20] ++ [0x74, 0x65, 0x78, 0x74, 0x2f, 0x68, 0x74, 0x6d, 0x6c] ++
          [0x20, 0x20, 0x20]) =
      .ok ([0x43, 0x6f, 0x6e, 0x74, 0x65, 0x6e, 0x74, 0x2d, 0x54, 0x79, 0x70, 0x65],
        [0x74, 0x65, 0x78, 0x74, 0x2f, 0x68, 0x74, 0x6d, 0x6c]) :=
  ⟨rfl, rfl, rfl⟩

/-- C2: on the line `X-Empty:` (valid name, nothing after the colon) the
    code does NOT return the empty value: the pattern matches the empty
    haystack but group 1 does not participate, and `get(1).ok_or(...)`
    turns that into `Err(InvalidHeaderValue)`. -/
theorem empty_value_rejected :
    extract_header_name_value [0x58, 0x2d, 0x45, 0x6d, 0x70, 0x74, 0x79, 0x3a] =
      .error .InvalidHeaderValue := rfl

/-- C3: on the line `:value` (colon first, zero-length name) the code
    does NOT fail: the scan finds the colon at index 0 before visiting
    any byte, there is no length check, and the result is `Ok` with an
    empty name slice. -/
theorem empty_name_accepted :
    extract_header_name_value [0x3a, 0x76, 0x61, 0x6c, 0x75, 0x65] =
      .ok ([], [0x76, 0x61, 0x6c, 0x75, 0x65]) := rfl

/-- C1: on the line `A:ab` the value candidate `ab` matches the
    field-value pattern and its whitespace-trimmed core is `ab` itself,
    yet the returned value is only `b`: group 1 sits inside `(...)*`,
    a two-character core is matched as two one-character iterations, and
    the capture keeps only the last iteration. -/
theorem two_char_core_capture :
    fieldValueOWSCaptures [0x61, 0x62] = some (some [0x62]) ∧
    unitBytes (coreUnits (tokenize [0x61, 0x62]).1) = [0x61, 0x62] ∧
    extract_header_name_value [0x41, 0x3a, 0x61, 0x62] = .ok ([0x41], [0x62]) :=
  ⟨rfl, rfl, rfl⟩

/-- C4 (counterexample): on the input `"\r\n"` the LF-split yields the
    segment `"\r"`, which is non-empty and therefore kept by the filter;
    trimming its CR afterwards leaves an empty slice in the output. -/
theorem crlf_input_empty_slice :
    extract_header_lines [0x0d, 0x0a] = [[]] ∧
    [] ∈ extract_header_lines [0x0d, 0x0a] := by
  refine ⟨rfl, ?_⟩
  rw [show extract_header_lines [0x0d, 0x0a] = [[]] from rfl]
  exact List.mem_cons_self [] []

/-! ### Claim theorems: line extractor -/

/-- C4 (amended): `extract_header_lines` never yields an empty slice
    PROVIDED no LF-delimited segment of the input is exactly the single
    byte CR; the emptiness filter runs before CR-trimming, so a lone-CR
    segment (as in the input `"\r\n"`) survives the filter and becomes an
    empty slice after trimming. -/
theorem no_empty_line_unless_lone_cr :
    ∀ B : List Nat, (∀ seg ∈ splitOnLF B, seg ≠ [0x0d]) →
      ∀ l ∈ extract_header_lines B, l ≠ [] := by
  intro B hB l hl
  unfold extract_header_lines at hl
  rcases List.mem_map.mp hl with ⟨seg, hseg, rfl⟩
  obtain ⟨hmem, hlen⟩ := List.mem_filter.mp hseg
  have hpos : 0 < seg.length := of_decide_eq_true hlen
  intro hceq
  unfold trimCR at hceq
  by_cases hlast : (seg.getLast? == some 0x0d) = true
  · rw [if_pos hlast] at hceq
    have h1 : seg.length - 1 = 0 := by
      have := List.length_dropLast seg
      rw [hceq] at this
      simp at this
      omega
    have h2 : seg.length = 1 := by omega
    obtain ⟨c, rfl⟩ := List.length_eq_one.mp h2
    rw [List.getLast?_singleton, beq_iff_eq, Option.some_inj] at hlast
    rw [hlast] at hmem
    exact hB [0x0d] hmem rfl
  · rw [if_neg hlast] at hceq
    rw [hceq] at hpos
    cases hpos

/-- C4 (witness for the amended theorem): the input `"A\r\nB"` has no
    lone-CR segment, and indeed no extracted line is empty. -/
theorem no_empty_line_unless_lone_cr_witness :
    (∀ seg ∈ splitOnLF [0x41, 0x0d, 0x0a, 0x42], seg ≠ [0x0d]) ∧
      ∀ l ∈ extract_header_lines [0x41, 0x0d, 0x0a, 0x42], l ≠ [] :=
  ⟨by decide, no_empty_line_unless_lone_cr [0x41, 0x0d, 0x0a, 0x42] (by decide)⟩

/-! ### Claim theorems: colon scan errors -/

theorem findColonScan_colonNotFound_iff :
    ∀ l : List Nat, findColonScan l = .error .ColonNotFound ↔
      (0x3a ∉ l ∧ ∀ b ∈ l, is_tchar b = true) := by
  intro l
  induction l with
  | nil => simp [findColonScan]
  | cons c t ih =>
    by_cases hc : c = 0x3a
    · subst hc
      simp [findColonScan]
    · by_cases ht : is_tchar c = true
      · rw [findColonScan, if_neg (by simp [hc]), if_pos ht]
        have hmap : Except.map (· + 1) (findColonScan t) = .error ParseError.ColonNotFound ↔
            findColonScan t = .error ParseError.ColonNotFound := by
          cases hs : findColonScan t with
          | ok j => simp [Except.map]
          | error e => simp [Except.map]
        rw [hmap, ih]
        simp only [List.mem_cons]
        constructor
        · intro ⟨h1, h2⟩
          refine ⟨?_, ?_⟩
          · rintro (heq | hmem)
            · exact hc heq.symm
            · exact h1 hmem
          · rintro b (rfl | hb)
            · exact ht
            · exact h2 b hb
        · intro ⟨h1, h2⟩
          exact ⟨fun hmem => h1 (Or.inr hmem), fun b hb => h2 b (Or.inr hb)⟩
      · rw [findColonScan, if_neg (by simp [hc]), if_neg ht]
        constructor
        · intro h; cases h
        · intro ⟨_, h2⟩
          exact absurd (h2 c (List.mem_cons_self c t)) ht

theorem findColonScan_app_bad :
    ∀ (lone : List Nat) (c : Nat) (ltwo : List Nat),
      (∀ b ∈ lone, is_tchar b = true) → is_tchar c = false → c ≠ 0x3a →
      findColonScan (lone ++ c :: ltwo) = .error .InvalidHeaderKeyChar := by
  intro lone
  induction lone with
  | nil =>
    intro c ltwo _ ht hc
    rw [List.nil_append, findColonScan, if_neg (by simpa using hc),
      if_neg (by simp [ht])]
  | cons x lone ih =>
    intro c ltwo hmem ht hc
    have hx : is_tchar x = true := hmem x (List.mem_cons_self x lone)
    rw [List.cons_append, findColonScan,
      if_neg (by simpa using is_tchar_ne_colon hx), if_pos hx,
      ih c ltwo (fun b hb => hmem b (List.mem_cons_of_mem x hb)) ht hc]
    rfl

/-- C5: `extract_header_name_value` fails with `ColonNotFound` exactly
    when the line has no colon byte and consists entirely of tchar bytes;
    and whenever some non-tchar, non-colon byte follows a (possibly
    empty) run of tchar bytes, the scan fails with `InvalidHeaderKeyChar`
    at that first offending byte, whatever bytes come after it. -/
theorem colon_scan_errors (l : List Nat) :
    (extract_header_name_value l = .error .ColonNotFound ↔
      (0x3a ∉ l ∧ ∀ b ∈ l, is_tchar b = true)) ∧
    (∀ (lone : List Nat) (c : Nat) (ltwo : List Nat), l = lone ++ c :: ltwo →
      (∀ b ∈ lone, is_tchar b = true) → is_tchar c = false → c ≠ 0x3a →
      extract_header_name_value l = .error .InvalidHeaderKeyChar) := by
  constructor
  · rw [← findColonScan_colonNotFound_iff l]
    unfold extract_header_name_value
    cases hs : findColonScan l with
    | error e => simp
    | ok i =>
      dsimp only
      constructor
      · intro h
        cases hcap : fieldValueOWSCaptures (l.drop (i + 1)) with
        | none => rw [hcap] at h; cases h
        | some g =>
          rw [hcap] at h
          cases g with
          | none => simp at h
          | some v => simp at h
      · intro h
        cases h
  · intro lone c ltwo hsplit hmem ht hc
    unfold extract_header_name_value
    rw [hsplit, findColonScan_app_bad lone c ltwo hmem ht hc]

/-- C5 (witness): on the line `A@b` the byte `@` (0x40) is the first
    offending byte and the scan fails with `InvalidHeaderKeyChar`. -/
theorem colon_scan_errors_witness :
    extract_header_name_value [0x41, 0x40, 0x62] = .error .InvalidHeaderKeyChar :=
  (colon_scan_errors [0x41, 0x40, 0x62]).2 [0x41] 0x40 [0x62] rfl (by decide)
    (by decide) (by decide)

/-! ### Claim theorems: totality / panic-freedom -/

theorem findColonScan_lt :
    ∀ {l : List Nat} {i : Nat}, findColonScan l = .ok i → i < l.length := by
  intro l
  induction l with
  | nil => intro i h; cases h
  | cons c t ih =>
    intro i h
    rw [findColonScan] at h
    by_cases hc : (c == 0x3a) = true
    · rw [if_pos hc] at h
      cases h
      simp
    · rw [if_neg hc] at h
      by_cases ht : is_tchar c = true
      · rw [if_pos ht] at h
        cases hs : findColonScan t with
        | error e => rw [hs] at h; simp [Except.map] at h
        | ok j =>
          rw [hs] at h
          simp only [Except.map] at h
          cases h
          have := ih hs
          simp only [List.length_cons]
          omega
      · rw [if_neg ht] at h
        cases h

theorem trimCRChecked_eq {line : List Nat} (h : line ≠ []) :
    trimCRChecked line = some (trimCR line) := by
  unfold trimCRChecked trimCR
  cases hl : line.getLast? with
  | none =>
    have hsome : line.getLast?.isSome = true := List.getLast?_isSome.mpr h
    rw [hl] at hsome
    cases hsome
  | some c => rfl

theorem mapM_trimCRChecked :
    ∀ xs : List (List Nat), (∀ x ∈ xs, x ≠ []) →
      xs.mapM trimCRChecked = some (xs.map trimCR) := by
  intro xs
  induction xs with
  | nil => intro _; rfl
  | cons x xs ih =>
    intro h
    rw [List.mapM_cons, trimCRChecked_eq (h x (List.mem_cons_self x xs)),
      ih (fun y hy => h y (List.mem_cons_of_mem x hy))]
    rfl

/-- C9: both functions are total: the panic-checked models, in which the
    index `line[line.len() - 1]` and the slice `&header_line[i + 1..]`
    return `none` when out of range, never take the `none` branch and
    agree with the plain models on every input, ASCII or not. -/
theorem parsers_total :
    (∀ B : List Nat, extract_header_lines_checked B = some (extract_header_lines B)) ∧
    (∀ l : List Nat,
      extract_header_name_value_checked l = some (extract_header_name_value l)) := by
  constructor
  · intro B
    unfold extract_header_lines_checked extract_header_lines
    refine mapM_trimCRChecked _ ?_
    intro x hx
    obtain ⟨_, hlen⟩ := List.mem_filter.mp hx
    have hpos := of_decide_eq_true hlen
    intro hnil
    rw [hnil] at hpos
    cases hpos
  · intro l
    unfold extract_header_name_value_checked extract_header_name_value
    cases hs : findColonScan l with
    | error e => rfl
    | ok i =>
      dsimp only
      rw [if_pos (Nat.succ_le_of_lt (findColonScan_lt hs))]

/-! ### Shape of a successful capture -/

theorem capSpec_eq (us : List (Nat × List Nat)) :
    capSpec us = if coreUnits us = [] then none
      else if (coreUnits us).length = 2 then some ((coreUnits us).drop 1)
      else some (coreUnits us) := rfl

theorem coreUnits_head_not_ows {us : List (Nat × List Nat)} {u : Nat × List Nat}
    {rest : List (Nat × List Nat)} (h : coreUnits us = u :: rest) :
    owsCp u.1 = false := by
  obtain ⟨w, hdec, hw⟩ := coreUnits_decomp us
  rw [h, List.cons_append] at hdec
  exact dropWhile_head_false us hdec

theorem capSpec_shape {us : List (Nat × List Nat)} (v : List (Nat × List Nat))
    (h : capSpec us = some v) :
    (∀ u ∈ v, u ∈ us) ∧ v ≠ [] ∧ v.length ≠ 2 ∧
    (∃ u t, v = u :: t ∧ owsCp u.1 = false) ∧
    (∃ d, v.getLast? = some d ∧ owsCp d.1 = false) := by
  rw [capSpec_eq] at h
  by_cases h0 : coreUnits us = []
  · rw [if_pos h0] at h; cases h
  rw [if_neg h0] at h
  obtain ⟨d, hd, hdows⟩ := coreUnits_last us h0
  by_cases h2 : (coreUnits us).length = 2
  · rw [if_pos h2] at h
    obtain ⟨a, b, hab⟩ := List.length_eq_two.mp h2
    have hdb : d = b := by
      rw [hab, List.getLast?_cons_cons, List.getLast?_singleton] at hd
      exact (Option.some_inj.mp hd).symm
    subst hdb
    rw [hab] at h
    cases h
    refine ⟨?_, by simp, by simp, ⟨d, [], rfl, hdows⟩, ⟨d, rfl, hdows⟩⟩
    intro u hu
    have : u = d := by simpa using hu
    rw [this]
    exact mem_coreUnits (hab ▸ List.mem_cons_of_mem a (List.mem_cons_self d []))
  · rw [if_neg h2] at h
    cases h
    refine ⟨fun x hx => mem_coreUnits hx, h0, h2, ?_, ⟨d, hd, hdows⟩⟩
    cases hcore : coreUnits us with
    | nil => exact absurd hcore h0
    | cons u rest => exact ⟨u, rest, rfl, coreUnits_head_not_ows hcore⟩

/-! ### The characters the engine reads re-serialize to the same bytes -/

theorem tokenize_wf :
    ∀ s : List Nat, ∀ u ∈ (tokenize s).1,
      (u.2 = [u.1] ∧ u.1 < 0x80) ∨
      (∃ b1 b2, u.2 = [b1, b2] ∧ (b1 = 0xc2 ∨ b1 = 0xc3) ∧
        0x80 ≤ b2 ∧ b2 ≤ 0xbf ∧ u.1 = (b1 - 0xc0) * 0x40 + (b2 - 0x80)) := by
  intro s
  induction s using tokenize.induct with
  | case1 => intro u hu; cases hu
  | case2 b t hlt ih =>
    intro u hu
    rw [tokenize.eq_def] at hu
    dsimp only at hu
    rw [if_pos hlt] at hu
    rcases List.mem_cons.mp hu with rfl | hu
    · exact Or.inl ⟨rfl, hlt⟩
    · exact ih u hu
  | case3 b hlt hc2 =>
    intro u hu
    rw [tokenize.eq_def] at hu
    dsimp only at hu
    rw [if_neg hlt, if_pos hc2] at hu
    cases hu
  | case4 b hlt hc2 b2 t2 hrange ih =>
    intro u hu
    rw [tokenize.eq_def] at hu
    dsimp only at hu
    rw [if_neg hlt, if_pos hc2, if_pos hrange] at hu
    dsimp only at hu
    rcases List.mem_cons.mp hu with rfl | hu
    · refine Or.inr ⟨b, b2, rfl, ?_, ?_, ?_, rfl⟩
      · simpa using hc2
      · simp only [Bool.and_eq_true, decide_eq_true_eq] at hrange
        exact hrange.1
      · simp only [Bool.and_eq_true, decide_eq_true_eq] at hrange
        exact hrange.2
    · exact ih u hu
  | case5 b hlt hc2 b2 t2 hrange =>
    intro u hu
    rw [tokenize.eq_def] at hu
    dsimp only at hu
    rw [if_neg hlt, if_pos hc2, if_neg hrange] at hu
    cases hu
  | case6 b t hlt hc2 =>
    intro u hu
    rw [tokenize.eq_def] at hu
    dsimp only at hu
    rw [if_neg hlt, if_neg hc2] at hu
    cases hu

theorem tokenize_unitBytes :
    ∀ vs : List (Nat × List Nat),
      (∀ u ∈ vs,
        (u.2 = [u.1] ∧ u.1 < 0x80) ∨
        (∃ b1 b2, u.2 = [b1, b2] ∧ (b1 = 0xc2 ∨ b1 = 0xc3) ∧
          0x80 ≤ b2 ∧ b2 ≤ 0xbf ∧ u.1 = (b1 - 0xc0) * 0x40 + (b2 - 0x80))) →
      tokenize (unitBytes vs) = (vs, []) := by
  intro vs
  induction vs with
  | nil => intro _; rfl
  | cons u vs ih =>
    intro h
    have hvs := ih fun x hx => h x (List.mem_cons_of_mem u hx)
    have hbytes : unitBytes (u :: vs) = u.2 ++ unitBytes vs := by
      simp [unitBytes]
    rw [hbytes]
    rcases h u (List.mem_cons_self u vs) with ⟨h2, hlt⟩ | ⟨b1, b2, h2, hb1, hb2l, hb2u, hcp⟩
    · rw [h2, List.cons_append, List.nil_append, tokenize.eq_def]
      dsimp only
      rw [if_pos hlt, hvs]
      show ((u.1, [u.1]) :: vs, []) = (u :: vs, [])
      rw [show (u.1, [u.1]) = u from by rw [← h2]]
    · have hlt : ¬ b1 < 0x80 := by rcases hb1 with rfl | rfl <;> decide
      have hc2 : (b1 == 0xc2 || b1 == 0xc3) = true := by
        rcases hb1 with rfl | rfl <;> decide
      have hrange : (decide (0x80 ≤ b2) && decide (b2 ≤ 0xbf)) = true := by
        simp only [Bool.and_eq_true, decide_eq_true_eq]
        exact ⟨hb2l, hb2u⟩
      rw [h2, List.cons_append, List.cons_append, List.nil_append, tokenize.eq_def]
      dsimp only
      rw [if_neg hlt, if_pos hc2, if_pos hrange, hvs]
      show (((b1 - 0xc0) * 0x40 + (b2 - 0x80), [b1, b2]) :: vs, []) = (u :: vs, [])
      rw [show ((b1 - 0xc0) * 0x40 + (b2 - 0x80), [b1, b2]) = u from by rw [← hcp, ← h2]]

/-! ### Claim theorems: roundtrip -/

theorem findColonScan_take :
    ∀ {l : List Nat} {i : Nat}, findColonScan l = .ok i →
      ∀ b ∈ l.take i, is_tchar b = true := by
  intro l
  induction l with
  | nil => intro i h; cases h
  | cons c t ih =>
    intro i h b hb
    rw [findColonScan] at h
    by_cases hc : (c == 0x3a) = true
    · rw [if_pos hc] at h
      cases h
      cases hb
    · rw [if_neg hc] at h
      by_cases ht : is_tchar c = true
      · rw [if_pos ht] at h
        cases hs : findColonScan t with
        | error e => rw [hs] at h; simp [Except.map] at h
        | ok j =>
          rw [hs] at h
          simp only [Except.map] at h
          cases h
          rw [List.take_succ_cons] at hb
          rcases List.mem_cons.mp hb with rfl | hb
          · exact ht
          · exact ih hs b hb
      · rw [if_neg ht] at h
        cases h

theorem findColonScan_app :
    ∀ (n v : List Nat), (∀ b ∈ n, is_tchar b = true) →
      findColonScan (n ++ 0x3a :: v) = .ok n.length := by
  intro n v
  induction n with
  | nil =>
    intro _
    rw [List.nil_append, findColonScan, if_pos (by decide)]
    rfl
  | cons x n ih =>
    intro h
    have hx : is_tchar x = true := h x (List.mem_cons_self x n)
    rw [List.cons_append, findColonScan,
      if_neg (by simpa using is_tchar_ne_colon hx), if_pos hx,
      ih (fun b hb => h b (List.mem_cons_of_mem x hb))]
    rfl

/-- C6: whenever `extract_header_name_value` succeeds on a line with the
    pair `(name, value)`, re-parsing the re-joined line
    `name ++ ":" ++ value` succeeds with exactly the same pair.  (The key
    invariant: a returned value is never empty and never consists of
    exactly two pattern characters, so on re-parse group 1 captures it
    whole.) -/
theorem parse_roundtrip (l n v : List Nat)
    (h : extract_header_name_value l = .ok (n, v)) :
    extract_header_name_value (n ++ 0x3a :: v) = .ok (n, v) := by
  unfold extract_header_name_value at h
  cases hs : findColonScan l with
  | error e => rw [hs] at h; cases h
  | ok i =>
    rw [hs] at h
    dsimp only at h
    cases hcap : fieldValueOWSCaptures (l.drop (i + 1)) with
    | none => rw [hcap] at h; cases h
    | some g =>
      rw [hcap] at h
      cases g with
      | none => cases h
      | some v' =>
        injection h with h'
        injection h' with hn hv
        subst hn
        subst hv
        obtain ⟨h2, hall, hg⟩ := captures_inv hcap
        obtain ⟨vu, hvu, hvb⟩ := Option.map_eq_some'.mp hg.symm
        obtain ⟨hmem, hne, hlen2, ⟨u0, t0, hhead, hheadows⟩, ⟨d0, hlast, hlastows⟩⟩ :=
          capSpec_shape vu hvu
        have hallv : ∀ u ∈ vu, innerCp u.1 = true := fun u hu => hall u (hmem u hu)
        have htok : tokenize v' = (vu, []) := by
          rw [← hvb]
          exact tokenize_unitBytes vu fun u hu => tokenize_wf (l.drop (i + 1)) u (hmem u hu)
        have hdw : vu.dropWhile (fun u => owsCp u.1) = vu := by
          rw [hhead]
          exact List.dropWhile_cons_of_neg (by simp [hheadows])
        have hdt : dropTrailOWS vu = vu := by
          unfold dropTrailOWS
          cases hrev : vu.reverse with
          | nil =>
            rw [List.dropWhile_nil, ← hrev, List.reverse_reverse]
          | cons x xs =>
            have hx : x = d0 := by
              have := List.head?_reverse vu
              rw [hrev, hlast] at this
              simpa using this
            rw [List.dropWhile_cons_of_neg (by simp [hx, hlastows]), ← hrev,
              List.reverse_reverse]
        have hcorev : coreUnits vu = vu := by
          unfold coreUnits
          rw [hdw, hdt]
        have hcapv : capSpec vu = some vu := by
          rw [capSpec_eq, hcorev, if_neg hne, if_neg hlen2]
        have hcap2 : fieldValueOWSCaptures v' = some (some v') := by
          have h1 := captures_allInner v' (by rw [htok]) (by
            intro u hu
            rw [htok] at hu
            exact hallv u hu)
          rw [htok] at h1
          show fieldValueOWSCaptures v' = some (some v')
          rw [h1]
          show some ((capSpec vu).map unitBytes) = some (some v')
          rw [hcapv, ← hvb]
          rfl
        have hdrop : (l.take i ++ 0x3a :: v').drop ((l.take i).length + 1) = v' := by
          rw [← List.drop_drop, List.drop_left]
          rfl
        have htake : (l.take i ++ 0x3a :: v').take (l.take i).length = l.take i :=
          List.take_left (l.take i) (0x3a :: v')
        unfold extract_header_name_value
        rw [findColonScan_app (l.take i) v' (findColonScan_take hs)]
        dsimp only
        rw [hdrop, hcap2, htake]

/-- C6 (witness): the line `A:x` parses to `(A, x)`, and re-parsing the
    re-joined `A:x` gives the same pair. -/
theorem parse_roundtrip_witness :
    extract_header_name_value ([0x41] ++ 0x3a :: [0x78]) = .ok ([0x41], [0x78]) :=
  parse_roundtrip [0x41, 0x3a, 0x78] [0x41] [0x78] rfl

end Heleven
